import Mathlib

/-!
# Verification of the code-cloud scanning pipeline (`app.py`)

Shallow embedding of the file-scanning / tokenization / aggregation pipeline
of the repository's `app.py`, together with theorems settling the frozen
claims about its specification.

Modelling conventions:
* Byte strings (`bytes`) are `List Nat` (one entry per byte).
* Text (`str`) is `List Char`; the Python regexes in the source only use
  ASCII character classes (`[A-Za-z0-9_]`, `\s`, `\d`, ...), which are
  modelled through `Char.toNat` ranges.
* `str.lower()` is modelled as ASCII lowercasing (all characters the
  pipeline ever lowercases are produced by ASCII-only regex classes).
* The float comparison `printable / len(data) > 0.8` is modelled exactly as
  `5 * printable > 4 * len`: for the list lengths reachable in the program
  (≤ 400000, the read cap) the ratio is never close enough to 0.8 for IEEE
  rounding to disagree with exact rational comparison.
* `str.splitlines()` is modelled as splitting on `'\n'` (no trailing empty
  line), and `str.strip()` strips the ASCII whitespace characters.
-/

namespace CodeCloud

/-! ## ASCII character classes used by the Python regexes -/

/-- Python `[A-Z]`. -/
def isUpperCh (c : Char) : Bool := 65 ≤ c.toNat && c.toNat ≤ 90

/-- Python `[a-z]`. -/
def isLowerCh (c : Char) : Bool := 97 ≤ c.toNat && c.toNat ≤ 122

/-- Python `\d` / `[0-9]`. -/
def isDigitCh (c : Char) : Bool := 48 ≤ c.toNat && c.toNat ≤ 57

/-- Python `[A-Za-z]`. -/
def isAlphaCh (c : Char) : Bool := isUpperCh c || isLowerCh c

/-- Python `\w` / `[A-Za-z0-9_]` (`'_'` is code point 95). -/
def isWordCh (c : Char) : Bool := isAlphaCh c || isDigitCh c || c.toNat = 95

/-- Python `\s` (ASCII): space, tab, newline, carriage return, vertical tab, form feed. -/
def isSpaceCh (c : Char) : Bool :=
  c.toNat = 32 || c.toNat = 9 || c.toNat = 10 || c.toNat = 13 ||
  c.toNat = 11 || c.toNat = 12

/-- Python `[_\-]` (separator class of `split_identifier`). -/
def isSepCh (c : Char) : Bool := c.toNat = 95 || c.toNat = 45

/-- ASCII `str.lower()` on one character. -/
def lowerCh (c : Char) : Char :=
  if isUpperCh c then Char.ofNat (c.toNat + 32) else c

/-- ASCII `str.lower()`. -/
def lowerStr (s : List Char) : List Char := s.map lowerCh

/-! ## Content loader (`is_probably_text`, `read_text`) -/

/-- Python `MAX_FILE_BYTES` from the source. -/
def MAX_FILE_BYTES : Nat := 400000

/-- A byte counted as printable by `is_probably_text`:
`32 <= b < 127 or b in (9, 10, 13)`. -/
def isPrintableByte (b : Nat) : Bool :=
  (32 ≤ b && b < 127) || b = 9 || b = 10 || b = 13

/-- Python `is_probably_text(data)` from the source: empty data and data containing a
null byte are binary; otherwise text iff the printable fraction exceeds 0.8
(modelled exactly as `5 * printable > 4 * length`). -/
def is_probably_text (data : List Nat) : Bool :=
  if data = [] then false
  else if 0 ∈ data then false
  else 4 * data.length < 5 * data.countP isPrintableByte

/-- One UTF-8 decoding step: returns the decoded code point (or `none` when
the head of the byte list is not a valid sequence) and the number of bytes
consumed (the maximal subpart of an invalid sequence, as CPython's
`errors="ignore"` handler skips it). Consumes at least one byte on nonempty
input. -/
def utf8Step (bs : List Nat) : Option Nat × Nat :=
  match bs with
  | [] => (none, 0)
  | b :: rest =>
    if b < 128 then (some b, 1)
    else if 194 ≤ b ∧ b ≤ 223 then
      match rest with
      | b1 :: _ =>
        if 128 ≤ b1 ∧ b1 ≤ 191 then (some ((b - 192) * 64 + (b1 - 128)), 2)
        else (none, 1)
      | [] => (none, 1)
    else if 224 ≤ b ∧ b ≤ 239 then
      -- the first continuation byte is restricted to 0xA0.. after lead 0xE0
      -- (no overlong encodings) and to ..0x9F after lead 0xED (no surrogates)
      match rest with
      | b1 :: rest1 =>
        if (128 ≤ b1 ∧ b1 ≤ 191) ∧ ¬(b = 224 ∧ b1 < 160) ∧ ¬(b = 237 ∧ 159 < b1) then
          match rest1 with
          | b2 :: _ =>
            if 128 ≤ b2 ∧ b2 ≤ 191 then
              (some ((b - 224) * 4096 + (b1 - 128) * 64 + (b2 - 128)), 3)
            else (none, 2)
          | [] => (none, 2)
        else (none, 1)
      | [] => (none, 1)
    else if 240 ≤ b ∧ b ≤ 244 then
      -- the first continuation byte is restricted to 0x90.. after lead 0xF0
      -- (no overlong encodings) and to ..0x8F after lead 0xF4 (≤ U+10FFFF)
      match rest with
      | b1 :: rest1 =>
        if (128 ≤ b1 ∧ b1 ≤ 191) ∧ ¬(b = 240 ∧ b1 < 144) ∧ ¬(b = 244 ∧ 143 < b1) then
          match rest1 with
          | b2 :: rest2 =>
            if 128 ≤ b2 ∧ b2 ≤ 191 then
              match rest2 with
              | b3 :: _ =>
                if 128 ≤ b3 ∧ b3 ≤ 191 then
                  (some ((b - 240) * 262144 + (b1 - 128) * 4096 +
                    (b2 - 128) * 64 + (b3 - 128)), 4)
                else (none, 3)
              | [] => (none, 3)
            else (none, 2)
          | [] => (none, 2)
        else (none, 1)
      | [] => (none, 1)
    else (none, 1)

/-- Decoding loop of `bytes.decode("utf-8", errors="ignore")`. Each step
consumes at least one byte, so the recursion is driven by a fuel argument
that `utf8DecodeIgnore` sets to the byte count (exactly enough); the fuel is
only a structural-recursion device, never exhausted on the actual call. -/
def utf8Go (fuel : Nat) (bs : List Nat) : List Char :=
  match fuel, bs with
  | _, [] => []
  | 0, _ => []
  | fuel + 1, b :: rest =>
    let step := utf8Step (b :: rest)
    let consumed := max step.2 1
    match step.1 with
    | some cp => Char.ofNat cp :: utf8Go fuel ((b :: rest).drop consumed)
    | none => utf8Go fuel ((b :: rest).drop consumed)

/-- Python `bytes.decode("utf-8", errors="ignore")`: decode UTF-8, dropping
undecodable sequences. -/
def utf8DecodeIgnore (bs : List Nat) : List Char :=
  utf8Go bs.length bs

/-- The binary-filter-plus-decode part of `read_text`: classify the (already
truncated) raw bytes, returning `[]` for binary content and the decoded text
otherwise. -/
def decode_content (raw : List Nat) : List Char :=
  if !is_probably_text raw then []
  else utf8DecodeIgnore raw

/-- Python `read_text(path)` from the source, over the outcome of
`path.read_bytes()` (`none` models an `OSError`/`PermissionError`):
truncate to `MAX_FILE_BYTES`, reject binary content, decode as UTF-8
ignoring errors. -/
def read_text (readResult : Option (List Nat)) : List Char :=
  match readResult with
  | none => []
  | some bytes => decode_content (bytes.take MAX_FILE_BYTES)

/-! ## Identifier splitting (`split_identifier`) -/

/-- Splitting loop of `re.split(r"[_\-]+", token)`: take the chunk before
the first separator run, skip the run, recurse. Fuel-driven structural
recursion (each step consumes the nonempty separator run, so `splitSeps`'s
fuel of `s.length` is never exhausted). -/
def splitSepsGo (fuel : Nat) (s : List Char) : List (List Char) :=
  let pre := s.takeWhile fun c => !isSepCh c
  match fuel, s.dropWhile fun c => !isSepCh c with
  | _, [] => [pre]
  | 0, _ :: _ => [pre]
  | fuel + 1, _ :: tail => pre :: splitSepsGo fuel (tail.dropWhile isSepCh)

/-- Python `re.split(r"[_\-]+", token)`: split on maximal runs of `_`/`-`, keeping
empty chunks at the boundaries exactly as `re.split` does. -/
def splitSeps (s : List Char) : List (List Char) :=
  splitSepsGo s.length s

/-- First alternative of the camel pattern: `[A-Z]?[a-z]+` (greedy, with the
optional capital backtracking to empty when no lowercase letters follow).
Returns the matched piece and the remainder. -/
def camelAlt1 (s : List Char) : Option (List Char × List Char) :=
  match s with
  | [] => none
  | c :: cs =>
    if isUpperCh c then
      match cs.takeWhile isLowerCh with
      | [] => none
      | low => some (c :: low, cs.dropWhile isLowerCh)
    else if isLowerCh c then
      some (c :: cs.takeWhile isLowerCh, cs.dropWhile isLowerCh)
    else none

/-- Second alternative: `[A-Z]+(?![a-z])`. The run of capitals is greedy and
backtracks by exactly one capital when a lowercase letter follows (failing
when only one capital was available). -/
def camelAlt2 (s : List Char) : Option (List Char × List Char) :=
  let m := (s.takeWhile isUpperCh).length
  if m = 0 then none
  else
    match s.drop m with
    | [] => some (s.take m, s.drop m)
    | r :: _ =>
      if isLowerCh r then
        if 2 ≤ m then some (s.take (m - 1), s.drop (m - 1)) else none
      else some (s.take m, s.drop m)

/-- Third alternative: `\d+`. -/
def camelAlt3 (s : List Char) : Option (List Char × List Char) :=
  match s with
  | [] => none
  | c :: cs =>
    if isDigitCh c then some (c :: cs.takeWhile isDigitCh, cs.dropWhile isDigitCh)
    else none

/-- One attempted match of `[A-Z]?[a-z]+|[A-Z]+(?![a-z])|\d+` at the current
position, trying the alternatives in order. -/
def camelTry (s : List Char) : Option (List Char × List Char) :=
  (camelAlt1 s).orElse fun _ => (camelAlt2 s).orElse fun _ => camelAlt3 s

/-- Scanning loop of `re.findall(r"[A-Z]?[a-z]+|[A-Z]+(?![a-z])|\d+", chunk)`:
collect non-overlapping matches left to right, advancing one character when
no alternative matches. Fuel-driven structural recursion (every step
consumes at least one character, so `camelFind`'s fuel of `s.length` is
never exhausted). -/
def camelFindGo (fuel : Nat) (s : List Char) : List (List Char) :=
  match fuel, s with
  | _, [] => []
  | 0, _ => []
  | fuel + 1, c :: cs =>
    match camelTry (c :: cs) with
    | some (piece, rest) => piece :: camelFindGo fuel rest
    | none => camelFindGo fuel cs

/-- Python `re.findall(r"[A-Z]?[a-z]+|[A-Z]+(?![a-z])|\d+", chunk)`. -/
def camelFind (s : List Char) : List (List Char) :=
  camelFindGo s.length s

/-- Python `split_identifier(token)` from the source: split on separator runs, apply
the camel pattern inside each nonempty chunk (falling back to the whole chunk
when the pattern finds nothing), lowercase, and drop pieces of length ≤ 1. -/
def split_identifier (token : List Char) : List (List Char) :=
  let pieces := (splitSeps token).flatMap fun chunk =>
    if chunk = [] then []
    else match camelFind chunk with
      | [] => [chunk]
      | ps => ps
  (pieces.filter fun p => 1 < p.length).map lowerStr

/-! ## Word tokens and `tokenize` -/

/-- Scanning loop of `re.findall(r"[A-Za-z0-9_]+", text)`: collect maximal
runs of word characters. Fuel-driven structural recursion (every step
consumes at least one character). -/
def wordTokensGo (fuel : Nat) (s : List Char) : List (List Char) :=
  match fuel, s with
  | _, [] => []
  | 0, _ => []
  | fuel + 1, c :: cs =>
    if isWordCh c then
      (c :: cs.takeWhile isWordCh) :: wordTokensGo fuel (cs.dropWhile isWordCh)
    else wordTokensGo fuel cs

/-- Python `re.findall(r"[A-Za-z0-9_]+", text)`: maximal runs of word characters. -/
def wordTokens (s : List Char) : List (List Char) :=
  wordTokensGo s.length s

/-- Python `tokenize(text, mode)` from the source. Words mode lowercases each token
and keeps those of length > 2; Code mode splits identifiers; any other mode
yields nothing (the generator returns immediately). -/
def tokenize (text : List Char) (mode : String) : List (List Char) :=
  (wordTokens text).flatMap fun token =>
    if mode = "words" then
      let lowered := lowerStr token
      if 2 < lowered.length then [lowered] else []
    else if mode = "code" then
      split_identifier token
    else []

/-! ## Symbol extractor (`symbol_tokens`) -/

/-- Python `str.strip()` (ASCII whitespace). -/
def stripChars (s : List Char) : List Char :=
  ((s.dropWhile isSpaceCh).reverse.dropWhile isSpaceCh).reverse

/-- Line-splitting loop of `text.splitlines()` (modelled as splitting on
`'\n'`): emit the text before the first newline and recurse past it. Fuel-
driven structural recursion (every step consumes at least the newline). -/
def splitLinesGo (fuel : Nat) (s : List Char) : List (List Char) :=
  if s = [] then []
  else
    let line := s.takeWhile fun c => !(c.toNat = 10)
    match fuel, s.dropWhile fun c => !(c.toNat = 10) with
    | _, [] => [line]
    | 0, _ :: _ => [line]
    | fuel + 1, _ :: tail => line :: splitLinesGo fuel tail

/-- Python `text.splitlines()`, modelled as splitting on `'\n'` (a trailing newline
produces no trailing empty line, as in Python). -/
def splitLines (s : List Char) : List (List Char) :=
  splitLinesGo s.length s

/-- Literal prefix eater: consumes `lit` or fails. -/
def eatLit (lit : String) (s : List Char) : Option (List Char) :=
  if lit.toList.isPrefixOf s then some (s.drop lit.length) else none

/-- Python `\s+`: one or more whitespace characters (greedy; every continuation in
the source patterns starts with a non-whitespace character, so maximal munch
is exact). -/
def eatWs1 (s : List Char) : Option (List Char) :=
  match s with
  | [] => none
  | c :: cs => if isSpaceCh c then some (cs.dropWhile isSpaceCh) else none

/-- Python `([A-Za-z_]\w*)`: the identifier capture group. Returns the captured
name and the remainder. -/
def eatIdent (s : List Char) : Option (List Char × List Char) :=
  match s with
  | [] => none
  | c :: cs =>
    if isAlphaCh c || c.toNat = 95 then
      some (c :: cs.takeWhile isWordCh, cs.dropWhile isWordCh)
    else none

/-- Python `(?:kw\s+)?`: optional keyword followed by whitespace, with the regex
engine's backtracking into the empty branch when the rest fails. -/
def optKw (kw : String) (s : List Char) (k : List Char → Option (List Char)) :
    Option (List Char) :=
  (((eatLit kw s).bind fun s1 => (eatWs1 s1).bind k)).orElse fun _ => k s

/-- Python `(?:kw1\s+|kw2\s+|...)?`: optional alternation where each alternative
carries its own `\s+`, ending with the empty branch. -/
def optAltKws (kws : List String) (s : List Char) (k : List Char → Option (List Char)) :
    Option (List Char) :=
  match kws with
  | [] => k s
  | kw :: rest =>
    (((eatLit kw s).bind fun s1 => (eatWs1 s1).bind k)).orElse fun _ =>
      optAltKws rest s k

/-- Python `(?:kw1|kw2|...)`: mandatory keyword alternation (no trailing `\s+`
inside the group). -/
def kwGroup (kws : List String) (s : List Char) (k : List Char → Option (List Char)) :
    Option (List Char) :=
  match kws with
  | [] => none
  | kw :: rest =>
    ((eatLit kw s).bind k).orElse fun _ => kwGroup rest s k

/-- The type-definition pattern of `symbol_tokens`:
`^(?:export\s+)?(?:abstract\s+)?(?:public\s+|private\s+|protected\s+)?`
`(?:class|interface|struct|trait)\s+([A-Za-z_][\w]*)` applied to the
stripped line; returns the captured name. -/
def matchTypeDef (s : List Char) : Option (List Char) :=
  optKw "export" s fun s1 =>
  optKw "abstract" s1 fun s2 =>
  optAltKws ["public", "private", "protected"] s2 fun s3 =>
  kwGroup ["class", "interface", "struct", "trait"] s3 fun s4 =>
  (eatWs1 s4).bind fun s5 =>
  (eatIdent s5).map Prod.fst

/-- The function-definition pattern of `symbol_tokens`:
`^(?:export\s+)?(?:async\s+)?(?:public\s+|private\s+|protected\s+|static\s+)?`
`(?:def|func|fn|function)\s+([A-Za-z_][\w]*)`. -/
def matchFuncDef (s : List Char) : Option (List Char) :=
  optKw "export" s fun s1 =>
  optKw "async" s1 fun s2 =>
  optAltKws ["public", "private", "protected", "static"] s2 fun s3 =>
  kwGroup ["def", "func", "fn", "function"] s3 fun s4 =>
  (eatWs1 s4).bind fun s5 =>
  (eatIdent s5).map Prod.fst

/-- The top-level-variable pattern `^([A-Za-z_][\w]*)\s*=` applied to the
stripped line. -/
def matchVarDef (s : List Char) : Option (List Char) :=
  (eatIdent s).bind fun nr =>
    match nr.2.dropWhile isSpaceCh with
    | c :: _ => if c.toNat = 61 then some nr.1 else none
    | [] => none

/-- Comment markers skipped by `symbol_tokens`:
`stripped.startswith(("#", "//", "/*", "*", "--"))`. -/
def commentMarkers : List (List Char) :=
  ["#".toList, "//".toList, "/*".toList, "*".toList, "--".toList]

/-- Python `line.startswith((" ", "\t"))` on the raw, untrimmed line. -/
def startsSpaceTab (line : List Char) : Bool :=
  match line with
  | c :: _ => c.toNat = 32 || c.toNat = 9
  | [] => false

/-- The names recorded for one line of `symbol_tokens`: skip blank and
comment lines, then try the type pattern, then the function pattern, then —
only when the raw line has zero indentation — the variable pattern; the
first match wins. -/
def lineDefs (line : List Char) : List (List Char) :=
  let stripped := stripChars line
  if stripped = [] then []
  else if commentMarkers.any (fun m => m.isPrefixOf stripped) then []
  else match matchTypeDef stripped with
  | some n => [n]
  | none =>
    match matchFuncDef stripped with
    | some n => [n]
    | none =>
      if startsSpaceTab line then []
      else
        match matchVarDef stripped with
        | some n => [n]
        | none => []

/-- Python `symbol_tokens(text)` from the source: collect the per-line definitions,
lowercase them, and yield those of length > 1. -/
def symbol_tokens (text : List Char) : List (List Char) :=
  ((splitLines text).flatMap lineDefs).filterMap fun name =>
    let lowered := lowerStr name
    if 1 < lowered.length then some lowered else none

/-! ## Tree walking, exclusion rules and aggregation -/

/-- Python `DEFAULT_EXCLUDES` from the source. -/
def DEFAULT_EXCLUDES : List String :=
  [".git", "node_modules", "__pycache__", ".venv", "venv"]

/-- Python `JS_EXTENSIONS` from the source. -/
def JS_EXTENSIONS : List String :=
  [".js", ".jsx", ".ts", ".tsx", ".mjs", ".cjs"]

/-- A filesystem entry produced by `REPO_ROOT.rglob("*")`: its path
components, whether it is a directory / regular file, and the outcome of
`read_bytes()` (`none` models an I/O error). -/
structure FSEntry where
  parts : List String
  isDir : Bool
  isFile : Bool
  bytes : Option (List Nat)
deriving DecidableEq, Repr

/-- Python `should_skip_path(path)`: some path component is in the exclusion set. -/
def should_skip_path (parts : List String) : Bool :=
  DEFAULT_EXCLUDES.any fun excluded => parts.contains excluded

/-- Python `path.name`: the final path component (empty for an empty path). -/
def baseName (parts : List String) : String :=
  (parts.getLast?).getD ""

/-- Python `path.name.startswith(".")`. -/
def startsWithDot (name : String) : Bool :=
  match name.toList with
  | c :: _ => c.toNat = 46
  | [] => false

/-- Python `path.suffix` as computed by `pathlib`: the substring of the name from
its last `'.'`, unless that dot is the first or the last character. -/
def pySuffix (name : List Char) : List Char :=
  if (name.contains '.') then
    let ridx := name.reverse.findIdx fun c => c.toNat = 46
    let i := name.length - 1 - ridx
    if 0 < i ∧ i < name.length - 1 then name.drop i else []
  else []

/-- Python `should_skip_file(path, mode)` from the source. -/
def should_skip_file (e : FSEntry) (mode : String) : Bool :=
  if should_skip_path e.parts || startsWithDot (baseName e.parts) then true
  else if !e.isFile then true
  else if mode = "symbols" &&
      JS_EXTENSIONS.any
        (fun ext => ext.toList = lowerStr (pySuffix (baseName e.parts).toList)) then
    true
  else false

/-- Python `counter.update([t])` for one term: a `collections.Counter` is a dict
keeping first-insertion order, so it is modelled as an association list where
a new key is appended at the end. -/
def counterAdd (c : List (List Char × Nat)) (t : List Char) :
    List (List Char × Nat) :=
  match c with
  | [] => [(t, 1)]
  | (s, n) :: rest =>
    if s = t then (s, n + 1) :: rest else (s, n) :: counterAdd rest t

/-- Python `counter.update(terms)`. -/
def counterUpdate (c : List (List Char × Nat)) (ts : List (List Char)) :
    List (List Char × Nat) :=
  ts.foldl counterAdd c

/-- The per-mode extraction used by `collect_frequencies`: `symbol_tokens`
in symbols mode, `tokenize` otherwise. -/
def extract_terms (mode : String) (text : List Char) : List (List Char) :=
  if mode = "symbols" then symbol_tokens text else tokenize text mode

/-- One iteration of the walk loop of `collect_frequencies` over the state
`(counter, scanned_files)`: directories are ignored, skipped files are
ignored, files with empty loaded text are ignored, and every remaining file
bumps `scanned_files` and feeds its terms into the counter. -/
def scanStep (mode : String) (st : List (List Char × Nat) × Nat) (e : FSEntry) :
    List (List Char × Nat) × Nat :=
  if e.isDir then st
  else if should_skip_file e mode then st
  else
    let text := read_text e.bytes
    if text = [] then st
    else (counterUpdate st.1 (extract_terms mode text), st.2 + 1)

/-- The final `(counter, scanned_files)` state of the walk loop. -/
def scanState (mode : String) (entries : List FSEntry) :
    List (List Char × Nat) × Nat :=
  entries.foldl (scanStep mode) ([], 0)

/-- Stable insertion (descending by count): `x` — coming earlier in the
input than everything already inserted — is placed before the first entry
whose count is ≤ its own. -/
def insertDesc (x : List Char × Nat) :
    List (List Char × Nat) → List (List Char × Nat)
  | [] => [x]
  | y :: ys => if y.2 ≤ x.2 then x :: y :: ys else y :: insertDesc x ys

/-- The stable sort by count descending used by `Counter.most_common`
(`heapq.nlargest` is documented to order equal counts by input order, i.e.
first-insertion order of the dict). Insertion sort from the right is that
stable sort: sortedness and stability are proved below, and together they
characterize the output uniquely. -/
def sortByCountDesc : List (List Char × Nat) → List (List Char × Nat)
  | [] => []
  | x :: xs => insertDesc x (sortByCountDesc xs)

/-- Python `counter.most_common(n)`: entries stably sorted by count descending,
truncated to the first `n`. -/
def most_common (c : List (List Char × Nat)) (n : Nat) : List (List Char × Nat) :=
  (sortByCountDesc c).take n

/-- One element of the `items` list of a response. -/
structure Item where
  term : List Char
  count : Nat
  mode : String
  files : Nat
deriving DecidableEq, Repr

/-- Python `collect_frequencies(mode)` from the source, over the list of filesystem
entries enumerated by `REPO_ROOT.rglob("*")`. -/
def collect_frequencies (mode : String) (entries : List FSEntry) : List Item :=
  let st := scanState mode entries
  (most_common st.1 120).map fun tc =>
    { term := tc.1, count := tc.2, mode := mode, files := st.2 }

/-- Python `build_response(mode)` from the source: `(mode, items, total_terms)`. -/
def build_response (mode : String) (entries : List FSEntry) :
    String × List Item × Nat :=
  let items := collect_frequencies mode entries
  (mode, items, (items.map Item.count).sum)

/-- Python `str.lower()` on a `String` (ASCII). -/
def lowerString (s : String) : String := (lowerStr s.toList).asString

/-- The mode resolution of `CloudRequestHandler.do_GET` for `/api/cloud`:
take the `type` query parameter (defaulting to `"words"` when absent),
lowercase it, and fall back to `"words"` unless the lowercased value is one
of the three recognized modes. -/
def resolve_mode (typeParam : Option String) : String :=
  let requested := lowerString (typeParam.getD "words")
  if requested = "words" ∨ requested = "code" ∨ requested = "symbols" then requested
  else "words"

/-! ## Concrete inputs used by the claims -/

/-- The bytes of `"hello world"`. -/
def helloWorldBytes : List Nat :=
  [104, 101, 108, 108, 111, 32, 119, 111, 114, 108, 100]

/-- A regular, readable text file named `data.txt` inside a hidden directory
`.cache` (the directory's name starts with `.` but is not in
`DEFAULT_EXCLUDES`). -/
def hiddenDirEntry : FSEntry :=
  { parts := [".cache", "data.txt"], isDir := false, isFile := true,
    bytes := some helloWorldBytes }

/-- The four-line input of the symbol-extraction example. -/
def c5Text : String :=
  "class Widget:\ndef build_widget():\nCONST_VALUE = 1\n  nested_var = 2"

/-- An unremarkable readable text file at the top level. -/
def plainEntry : FSEntry :=
  { parts := ["notes.txt"], isDir := false, isFile := true,
    bytes := some helloWorldBytes }

/-- Bytes of a text containing 121 distinct three-letter words (`w` followed
by two base-11 digit letters), space-separated. -/
def manyWordsBytes : List Nat :=
  (List.range 121).flatMap fun k => [119, 97 + k / 11, 97 + k % 11, 32]

/-- A readable file whose text holds more than 120 distinct terms. -/
def manyWordsEntry : FSEntry :=
  { parts := ["many.txt"], isDir := false, isFile := true,
    bytes := some manyWordsBytes }

/-- The number of walked entries that are regular non-skipped files whose
loaded text is non-empty — the value `scanned_files` reaches at the end of
the walk. -/
def nonEmptyTextFileCount (mode : String) (entries : List FSEntry) : Nat :=
  (entries.filter fun e =>
    !e.isDir && !should_skip_file e mode && !decide (read_text e.bytes = [])).length

/-- The well-formedness every emitted term must satisfy (claim C7): length
greater than one, fixed under lowercasing, non-empty and not whitespace. -/
def TermOK (t : List Char) : Prop :=
  1 < t.length ∧ lowerStr t = t ∧ t ≠ [] ∧ ¬(∀ c ∈ t, isSpaceCh c = true)


/-! ## Supporting lemmas -/

/-! ### Character-class lemmas -/

theorem toNat_ofNat_of_lt {n : Nat} (h : n < 55296) : (Char.ofNat n).toNat = n := by
  have hv : n.isValidChar := Or.inl h
  rw [Char.ofNat, dif_pos hv]
  simp [Char.ofNatAux, Char.toNat]
  rfl

theorem lowerCh_toNat_of_upper {c : Char} (h : isUpperCh c = true) :
    (lowerCh c).toNat = c.toNat + 32 := by
  simp only [isUpperCh, Bool.and_eq_true, decide_eq_true_eq] at h
  rw [lowerCh, if_pos]
  · exact toNat_ofNat_of_lt (by omega)
  · simp only [isUpperCh, Bool.and_eq_true, decide_eq_true_eq]; omega

theorem lowerCh_of_not_upper {c : Char} (h : isUpperCh c = false) :
    lowerCh c = c := by
  rw [lowerCh, if_neg]; simp [h]

theorem isUpperCh_lowerCh (c : Char) : isUpperCh (lowerCh c) = false := by
  by_cases h : isUpperCh c = true
  · have := lowerCh_toNat_of_upper h
    simp only [isUpperCh, Bool.and_eq_true, decide_eq_true_eq] at h ⊢
    rw [this]
    simp only [Bool.and_eq_false_iff, decide_eq_false_iff_not]
    omega
  · rw [lowerCh_of_not_upper (by simpa using h)]
    simpa using h

theorem lowerCh_idem (c : Char) : lowerCh (lowerCh c) = lowerCh c :=
  lowerCh_of_not_upper (isUpperCh_lowerCh c)

theorem lowerStr_idem (s : List Char) : lowerStr (lowerStr s) = lowerStr s := by
  simp [lowerStr, List.map_map, Function.comp_def, lowerCh_idem]

theorem length_lowerStr (s : List Char) : (lowerStr s).length = s.length := by
  simp [lowerStr]

theorem isWordCh_lowerCh {c : Char} (h : isWordCh c = true) :
    isWordCh (lowerCh c) = true := by
  by_cases hu : isUpperCh c = true
  · have ht := lowerCh_toNat_of_upper hu
    simp only [isUpperCh, Bool.and_eq_true, decide_eq_true_eq] at hu
    simp only [isWordCh, isAlphaCh, isUpperCh, isLowerCh, isDigitCh, ht,
      Bool.or_eq_true, Bool.and_eq_true, decide_eq_true_eq]
    omega
  · rwa [lowerCh_of_not_upper (by simpa using hu)]

theorem not_space_of_word {c : Char} (h : isWordCh c = true) :
    isSpaceCh c = false := by
  simp only [isWordCh, isAlphaCh, isUpperCh, isLowerCh, isDigitCh,
    Bool.or_eq_true, Bool.and_eq_true, decide_eq_true_eq] at h
  simp only [isSpaceCh, Bool.or_eq_false_iff, decide_eq_false_iff_not]
  omega

/-! ## Claims -/

/-- Claim **C1, counterexample.** The claim says a file whose path contains a
hidden entry is excluded and contributes no terms; but `.cache/data.txt`
(a non-hidden file inside a hidden directory) is not skipped, is counted as
scanned, and contributes its terms. -/
theorem C1_counterexample :
    should_skip_file hiddenDirEntry "words" = false ∧
    collect_frequencies "words" [hiddenDirEntry] =
      [{ term := "hello".toList, count := 1, mode := "words", files := 1 },
       { term := "world".toList, count := 1, mode := "words", files := 1 }] := by
  constructor
  · decide
  · decide

/-- Claim **C1, amended.** The exclusion rule checks only the file's own base name
for a leading `.` (besides the fixed exclusion set, the regular-file check
and the symbols-mode JS-extension check); a dot-prefixed *ancestor*
directory does not exclude a file. -/
theorem C1_skip_characterization : ∀ (e : FSEntry) (mode : String),
    should_skip_file e mode = true ↔
      ((∃ p ∈ DEFAULT_EXCLUDES, p ∈ e.parts) ∨
       startsWithDot (baseName e.parts) = true ∨
       e.isFile = false ∨
       (mode = "symbols" ∧
        ∃ ext ∈ JS_EXTENSIONS,
          ext.toList = lowerStr (pySuffix (baseName e.parts).toList))) := by
  intro e mode
  constructor
  · intro h
    unfold should_skip_file at h
    split at h
    · rename_i hc
      rcases Bool.or_eq_true_iff.mp hc with hc | hc
      · left
        simpa [should_skip_path, List.any_eq_true] using hc
      · right; left; exact hc
    · split at h
      · rename_i hf
        right; right; left
        simpa using hf
      · split at h
        · rename_i hjs
          right; right; right
          have hsplit := Bool.and_eq_true_iff.mp hjs
          refine ⟨by simpa using hsplit.1, ?_⟩
          simpa [List.any_eq_true] using hsplit.2
        · exact absurd h (by simp)
  · rintro (⟨p, hmem, hin⟩ | hdot | hfile | ⟨hm, ext, hmem, hext⟩)
    · unfold should_skip_file
      have hsp : should_skip_path e.parts = true := by
        simp only [should_skip_path, List.any_eq_true]
        exact ⟨p, hmem, by simpa using hin⟩
      simp [hsp]
    · unfold should_skip_file
      simp [hdot]
    · unfold should_skip_file
      split
      · rfl
      · simp [hfile]
    · unfold should_skip_file
      split
      · rfl
      · split
        · rfl
        · have hcond : (decide (mode = "symbols") &&
              JS_EXTENSIONS.any fun ext =>
                ext.toList = lowerStr (pySuffix (baseName e.parts).toList)) = true := by
            have h1 : decide (mode = "symbols") = true := by simp [hm]
            have h2 : (JS_EXTENSIONS.any fun ext =>
                ext.toList = lowerStr (pySuffix (baseName e.parts).toList)) = true := by
              simp only [List.any_eq_true, decide_eq_true_eq]
              exact ⟨ext, hmem, hext⟩
            rw [h1, h2]
            rfl
          rw [if_pos hcond]

/-- Claim **C2, counterexample.** The claim says any `type` value other than the
three exact strings yields Words mode; but the handler lowercases the value
before the membership test, so `type=CODE` runs in Code mode and the
response's mode field is `"code"`. -/
theorem C2_counterexample :
    resolve_mode (some "CODE") = "code" ∧
    resolve_mode (some "CODE") ≠ "words" ∧
    (build_response (resolve_mode (some "CODE")) []).1 = "code" := by
  refine ⟨by decide, by decide, by decide⟩

/-- Claim **C2, amended.** The `type` parameter is matched case-insensitively: the
value is lowercased first, the scan defaults to Words mode only when the
parameter is absent or its lowercased value is not one of the three
recognized modes, and otherwise runs in the mode named by the lowercased
value. -/
theorem C2_mode_resolution :
    resolve_mode none = "words" ∧
    (∀ s : String, lowerString s ≠ "words" → lowerString s ≠ "code" →
      lowerString s ≠ "symbols" → resolve_mode (some s) = "words") ∧
    (∀ s : String,
      (lowerString s = "words" ∨ lowerString s = "code" ∨ lowerString s = "symbols") →
      resolve_mode (some s) = lowerString s) := by
  refine ⟨by decide, ?_, ?_⟩
  · intro s h1 h2 h3
    simp only [resolve_mode, Option.getD_some]
    rw [if_neg]
    push_neg
    exact ⟨h1, h2, h3⟩
  · intro s h
    simp only [resolve_mode, Option.getD_some]
    rw [if_pos h]

/-- Claim **C2, witness** for the amended theorem: `type=Symbols` lowercases to a
recognized value, and a genuinely unrecognized value defaults to words. -/
theorem C2_mode_resolution_witness :
    resolve_mode (some "Symbols") = "symbols" ∧ resolve_mode (some "wordz") = "words" := by
  constructor
  · have h := C2_mode_resolution.2.2 "Symbols" (by decide)
    rw [h]; decide
  · exact C2_mode_resolution.2.1 "wordz" (by decide) (by decide) (by decide)

/-- Claim **C6.** The Code-mode identifier splitter on the three contract
examples: split on separator runs, then on case boundaries, lowercase,
drop pieces of length ≤ 1. -/
theorem C6_split_identifier_examples :
    split_identifier "codeCloud".toList = ["code".toList, "cloud".toList] ∧
    split_identifier "code_cloud".toList = ["code".toList, "cloud".toList] ∧
    split_identifier "HTTPServer".toList = ["http".toList, "server".toList] := by
  refine ⟨by decide, by decide, by decide⟩

theorem wordTokensGo_spec : ∀ (fuel : Nat) (s : List Char) (tok : List Char),
    tok ∈ wordTokensGo fuel s → tok ≠ [] ∧ ∀ c ∈ tok, isWordCh c = true := by
  intro fuel
  induction fuel with
  | zero =>
    intro s tok h
    cases s <;> simp [wordTokensGo] at h
  | succ fuel ih =>
    intro s tok h
    match s with
    | [] => simp [wordTokensGo] at h
    | c :: cs =>
      rw [wordTokensGo] at h
      split at h
      · rename_i hw
        rcases List.mem_cons.mp h with h | h
        · subst h
          refine ⟨by simp, ?_⟩
          intro d hd
          rcases List.mem_cons.mp hd with hd | hd
          · subst hd; exact hw
          · exact List.mem_takeWhile_imp hd
        · exact ih _ _ h
      · exact ih _ _ h

theorem splitSepsGo_spec : ∀ (fuel : Nat) (s : List Char) (chunk : List Char),
    chunk ∈ splitSepsGo fuel s → ∀ c ∈ chunk, c ∈ s := by
  intro fuel
  induction fuel with
  | zero =>
    intro s chunk h c hc
    rw [splitSepsGo.eq_def] at h
    split at h
    · simp at h
      subst h
      exact List.takeWhile_subset _ hc
    · simp at h
      subst h
      exact List.takeWhile_subset _ hc
    · rename_i heq1 heq2
      exact absurd heq1 (by omega)
  | succ fuel ih =>
    intro s chunk h c hc
    rw [splitSepsGo.eq_def] at h
    split at h
    · simp at h
      subst h
      exact List.takeWhile_subset _ hc
    · rename_i heq1 heq2
      exact absurd heq1 (by omega)
    · rename_i fuel2 head tail heq1 heq2
      obtain rfl : fuel2 = fuel := by omega
      rcases List.mem_cons.mp h with h | h
      · subst h
        exact List.takeWhile_subset _ hc
      · have hmem : c ∈ tail.dropWhile isSepCh := ih _ _ h c hc
        have h1 : c ∈ head :: tail :=
          List.mem_cons_of_mem head (List.dropWhile_subset _ hmem)
        rw [← heq2] at h1
        exact List.dropWhile_subset _ h1

theorem camelAlt1_spec {s p r : List Char} (h : camelAlt1 s = some (p, r)) :
    p ≠ [] ∧ (∀ c ∈ p, c ∈ s) ∧ (∀ c ∈ r, c ∈ s) := by
  match s with
  | [] => simp [camelAlt1] at h
  | c :: cs =>
    simp only [camelAlt1] at h
    split at h
    · split at h
      · exact absurd h (by simp)
      · rw [Option.some.injEq, Prod.mk.injEq] at h
        obtain ⟨hp, hr⟩ := h
        subst hp; subst hr
        refine ⟨by simp, ?_, ?_⟩
        · intro d hd
          rcases List.mem_cons.mp hd with hd | hd
          · subst hd; simp
          · exact List.mem_cons_of_mem _ (List.takeWhile_subset _ hd)
        · intro d hd
          exact List.mem_cons_of_mem _ (List.dropWhile_subset _ hd)
    · split at h
      · rw [Option.some.injEq, Prod.mk.injEq] at h
        obtain ⟨hp, hr⟩ := h
        subst hp; subst hr
        refine ⟨by simp, ?_, ?_⟩
        · intro d hd
          rcases List.mem_cons.mp hd with hd | hd
          · subst hd; simp
          · exact List.mem_cons_of_mem _ (List.takeWhile_subset _ hd)
        · intro d hd
          exact List.mem_cons_of_mem _ (List.dropWhile_subset _ hd)
      · exact absurd h (by simp)

theorem camelAlt2_spec {s p r : List Char} (h : camelAlt2 s = some (p, r)) :
    p ≠ [] ∧ (∀ c ∈ p, c ∈ s) ∧ (∀ c ∈ r, c ∈ s) := by
  simp only [camelAlt2] at h
  split at h
  · exact absurd h (by simp)
  · rename_i hm
    have hmlen : (s.takeWhile isUpperCh).length ≤ s.length :=
      (List.takeWhile_sublist _).length_le
    split at h
    · rename_i hdrop
      rw [Option.some.injEq, Prod.mk.injEq] at h
      obtain ⟨hp, hr⟩ := h
      subst hp; subst hr
      refine ⟨?_, fun c hc => List.take_subset _ _ hc, fun c hc => List.drop_subset _ _ hc⟩
      have hlen : s.length - (s.takeWhile isUpperCh).length = 0 := by
        have := congrArg List.length hdrop
        simpa [List.length_drop] using this
      intro hcontra
      have := congrArg List.length hcontra
      simp only [List.length_take, List.length_nil] at this
      omega
    · split at h
      · split at h
        · rw [Option.some.injEq, Prod.mk.injEq] at h
          obtain ⟨hp, hr⟩ := h
          subst hp; subst hr
          refine ⟨?_, fun c hc => List.take_subset _ _ hc, fun c hc => List.drop_subset _ _ hc⟩
          rename_i hdrop _ h2m
          have hlen2 : (s.takeWhile isUpperCh).length - 1 < s.length := by omega
          intro hcontra
          have := congrArg List.length hcontra
          simp only [List.length_take, List.length_nil] at this
          omega
        · exact absurd h (by simp)
      · rw [Option.some.injEq, Prod.mk.injEq] at h
        obtain ⟨hp, hr⟩ := h
        subst hp; subst hr
        refine ⟨?_, fun c hc => List.take_subset _ _ hc, fun c hc => List.drop_subset _ _ hc⟩
        rename_i hdrop _
        have hlen : s.length - (s.takeWhile isUpperCh).length ≠ 0 := by
          have := congrArg List.length hdrop
          simp only [List.length_drop, List.length_cons] at this
          omega
        intro hcontra
        have := congrArg List.length hcontra
        simp only [List.length_take, List.length_nil] at this
        omega

theorem camelAlt3_spec {s p r : List Char} (h : camelAlt3 s = some (p, r)) :
    p ≠ [] ∧ (∀ c ∈ p, c ∈ s) ∧ (∀ c ∈ r, c ∈ s) := by
  match s with
  | [] => simp [camelAlt3] at h
  | c :: cs =>
    simp only [camelAlt3] at h
    split at h
    · rw [Option.some.injEq, Prod.mk.injEq] at h
      obtain ⟨hp, hr⟩ := h
      subst hp; subst hr
      refine ⟨by simp, ?_, ?_⟩
      · intro d hd
        rcases List.mem_cons.mp hd with hd | hd
        · subst hd; simp
        · exact List.mem_cons_of_mem _ (List.takeWhile_subset _ hd)
      · intro d hd
        exact List.mem_cons_of_mem _ (List.dropWhile_subset _ hd)
    · exact absurd h (by simp)

theorem camelTry_spec {s p r : List Char} (h : camelTry s = some (p, r)) :
    p ≠ [] ∧ (∀ c ∈ p, c ∈ s) ∧ (∀ c ∈ r, c ∈ s) := by
  simp only [camelTry, ← Option.or_eq_orElse] at h
  rcases Option.or_eq_some.mp h with h1 | ⟨-, h2⟩
  · exact camelAlt1_spec h1
  · rcases Option.or_eq_some.mp h2 with h2 | ⟨-, h3⟩
    · exact camelAlt2_spec h2
    · exact camelAlt3_spec h3

theorem camelFindGo_spec : ∀ (fuel : Nat) (s : List Char) (p : List Char),
    p ∈ camelFindGo fuel s → p ≠ [] ∧ ∀ c ∈ p, c ∈ s := by
  intro fuel
  induction fuel with
  | zero =>
    intro s p h
    cases s <;> simp [camelFindGo] at h
  | succ fuel ih =>
    intro s p h
    match s with
    | [] => simp [camelFindGo] at h
    | c :: cs =>
      rw [camelFindGo] at h
      rcases htry : camelTry (c :: cs) with _ | ⟨piece, rest⟩
      · rw [htry] at h
        obtain ⟨hne, hsub⟩ := ih _ _ h
        exact ⟨hne, fun d hd => List.mem_cons_of_mem _ (hsub d hd)⟩
      · rw [htry] at h
        obtain ⟨hne, hpc, hrc⟩ := camelTry_spec htry
        rcases List.mem_cons.mp h with h | h
        · subst h
          exact ⟨hne, hpc⟩
        · obtain ⟨hne', hsub⟩ := ih _ _ h
          exact ⟨hne', fun d hd => hrc d (hsub d hd)⟩

/-- Every piece returned by `split_identifier` has length > 1, is its own
lowercasing, and each of its characters is the lowercasing of a character of
the input token. -/
theorem split_identifier_spec {token t : List Char}
    (h : t ∈ split_identifier token) :
    1 < t.length ∧ lowerStr t = t ∧ ∀ c ∈ t, ∃ c0 ∈ token, c = lowerCh c0 := by
  simp only [split_identifier, List.mem_map, List.mem_filter] at h
  obtain ⟨p, ⟨hp, hplen⟩, ht⟩ := h
  subst ht
  have hchars : ∀ c ∈ p, c ∈ token := by
    simp only [List.mem_flatMap] at hp
    obtain ⟨chunk, hchunk, hpc⟩ := hp
    have hchunksub : ∀ c ∈ chunk, c ∈ token := splitSepsGo_spec _ _ _ hchunk
    split at hpc
    · simp at hpc
    · split at hpc
      · rename_i hcf
        simp only [List.mem_singleton] at hpc
        subst hpc
        exact hchunksub
      · intro c hc
        exact hchunksub c ((camelFindGo_spec _ _ _ hpc).2 c hc)
  refine ⟨?_, lowerStr_idem p, ?_⟩
  · rw [length_lowerStr]
    simpa using hplen
  · intro c hc
    simp only [lowerStr, List.mem_map] at hc
    obtain ⟨c0, hc0, hlc⟩ := hc
    exact ⟨c0, hchars c0 hc0, hlc.symm⟩

theorem eatIdent_spec {s : List Char} {nr : List Char × List Char}
    (h : eatIdent s = some nr) : nr.1 ≠ [] ∧ ∀ c ∈ nr.1, isWordCh c = true := by
  match s with
  | [] => simp [eatIdent] at h
  | c :: cs =>
    simp only [eatIdent] at h
    split at h
    · rename_i hc
      rw [Option.some.injEq] at h
      subst h
      refine ⟨by simp, ?_⟩
      intro d hd
      rcases List.mem_cons.mp hd with hd | hd
      · subst hd
        simp only [Bool.or_eq_true, decide_eq_true_eq] at hc
        simp only [isWordCh, Bool.or_eq_true, decide_eq_true_eq]
        tauto
      · exact List.mem_takeWhile_imp hd
    · exact absurd h (by simp)

theorem optKw_some {kw : String} {s : List Char} {k : List Char → Option (List Char)}
    {n : List Char} (h : optKw kw s k = some n) : ∃ s2, k s2 = some n := by
  simp only [optKw, ← Option.or_eq_orElse] at h
  rcases Option.or_eq_some.mp h with h1 | ⟨-, h2⟩
  · rcases Option.bind_eq_some.mp h1 with ⟨s1, -, h3⟩
    rcases Option.bind_eq_some.mp h3 with ⟨s2, -, h4⟩
    exact ⟨s2, h4⟩
  · exact ⟨s, h2⟩

theorem optAltKws_some : ∀ {kws : List String} {s : List Char}
    {k : List Char → Option (List Char)} {n : List Char},
    optAltKws kws s k = some n → ∃ s2, k s2 = some n := by
  intro kws
  induction kws with
  | nil =>
    intro s k n h
    exact ⟨s, h⟩
  | cons kw rest ih =>
    intro s k n h
    simp only [optAltKws, ← Option.or_eq_orElse] at h
    rcases Option.or_eq_some.mp h with h1 | ⟨-, h2⟩
    · rcases Option.bind_eq_some.mp h1 with ⟨s1, -, h3⟩
      rcases Option.bind_eq_some.mp h3 with ⟨s2, -, h4⟩
      exact ⟨s2, h4⟩
    · exact ih h2

theorem kwGroup_some : ∀ {kws : List String} {s : List Char}
    {k : List Char → Option (List Char)} {n : List Char},
    kwGroup kws s k = some n → ∃ s2, k s2 = some n := by
  intro kws
  induction kws with
  | nil =>
    intro s k n h
    simp [kwGroup] at h
  | cons kw rest ih =>
    intro s k n h
    simp only [kwGroup, ← Option.or_eq_orElse] at h
    rcases Option.or_eq_some.mp h with h1 | ⟨-, h2⟩
    · rcases Option.bind_eq_some.mp h1 with ⟨s1, -, h3⟩
      exact ⟨s1, h3⟩
    · exact ih h2

theorem matchTypeDef_spec {s n : List Char} (h : matchTypeDef s = some n) :
    n ≠ [] ∧ ∀ c ∈ n, isWordCh c = true := by
  obtain ⟨s1, h1⟩ := optKw_some h
  obtain ⟨s2, h2⟩ := optKw_some h1
  obtain ⟨s3, h3⟩ := optAltKws_some h2
  obtain ⟨s4, h4⟩ := kwGroup_some h3
  rcases Option.bind_eq_some.mp h4 with ⟨s5, -, h5⟩
  rcases Option.map_eq_some'.mp h5 with ⟨nr, hnr, hfst⟩
  subst hfst
  exact eatIdent_spec hnr

theorem matchFuncDef_spec {s n : List Char} (h : matchFuncDef s = some n) :
    n ≠ [] ∧ ∀ c ∈ n, isWordCh c = true := by
  obtain ⟨s1, h1⟩ := optKw_some h
  obtain ⟨s2, h2⟩ := optKw_some h1
  obtain ⟨s3, h3⟩ := optAltKws_some h2
  obtain ⟨s4, h4⟩ := kwGroup_some h3
  rcases Option.bind_eq_some.mp h4 with ⟨s5, -, h5⟩
  rcases Option.map_eq_some'.mp h5 with ⟨nr, hnr, hfst⟩
  subst hfst
  exact eatIdent_spec hnr

theorem matchVarDef_spec {s n : List Char} (h : matchVarDef s = some n) :
    n ≠ [] ∧ ∀ c ∈ n, isWordCh c = true := by
  simp only [matchVarDef] at h
  rcases Option.bind_eq_some.mp h with ⟨nr, hnr, h2⟩
  split at h2
  · split at h2
    · rw [Option.some.injEq] at h2
      subst h2
      exact eatIdent_spec hnr
    · exact absurd h2 (by simp)
  · exact absurd h2 (by simp)

theorem lineDefs_spec {line n : List Char} (h : n ∈ lineDefs line) :
    n ≠ [] ∧ ∀ c ∈ n, isWordCh c = true := by
  simp only [lineDefs] at h
  split at h
  · simp at h
  · split at h
    · simp at h
    · split at h
      · rename_i hmt
        simp only [List.mem_singleton] at h
        subst h
        exact matchTypeDef_spec hmt
      · split at h
        · rename_i hmf
          simp only [List.mem_singleton] at h
          subst h
          exact matchFuncDef_spec hmf
        · split at h
          · simp at h
          · split at h
            · rename_i hmv
              simp only [List.mem_singleton] at h
              subst h
              exact matchVarDef_spec hmv
            · simp at h

theorem symbol_tokens_spec {text t : List Char} (h : t ∈ symbol_tokens text) :
    1 < t.length ∧ ∃ p, t = lowerStr p ∧ ∀ c ∈ p, isWordCh c = true := by
  simp only [symbol_tokens, List.mem_filterMap] at h
  obtain ⟨name, hname, hsome⟩ := h
  split at hsome
  · rw [Option.some.injEq] at hsome
    subst hsome
    rename_i hlen
    obtain ⟨-, hword⟩ :=
      lineDefs_spec (List.mem_flatMap.mp hname).choose_spec.2
    exact ⟨hlen, _, rfl, hword⟩
  · exact absurd hsome (by simp)

theorem TermOK_mk {t : List Char} (hlen : 1 < t.length)
    (hidem : lowerStr t = t) (hword : ∀ c ∈ t, isWordCh c = true) : TermOK t := by
  refine ⟨hlen, hidem, ?_, ?_⟩
  · intro hnil
    subst hnil
    simp at hlen
  · intro hall
    match t, hlen with
    | d :: rest, _ =>
      have h1 := hall d (List.mem_cons_self d rest)
      have h2 := not_space_of_word (hword d (List.mem_cons_self d rest))
      rw [h1] at h2
      exact absurd h2 (by simp)

theorem lowerStr_wordCh {p : List Char} (hp : ∀ c ∈ p, isWordCh c = true) :
    ∀ c ∈ lowerStr p, isWordCh c = true := by
  intro c hc
  simp only [lowerStr, List.mem_map] at hc
  obtain ⟨c0, hc0, hlc⟩ := hc
  subst hlc
  exact isWordCh_lowerCh (hp c0 hc0)

/-- Every term produced by the per-mode extraction is well-formed. -/
theorem extract_terms_spec : ∀ (mode : String) (text : List Char) (t : List Char),
    t ∈ extract_terms mode text → TermOK t := by
  intro mode text t h
  unfold extract_terms at h
  split at h
  · obtain ⟨hlen, p, hp, hword⟩ := symbol_tokens_spec h
    subst hp
    exact TermOK_mk hlen (lowerStr_idem p) (lowerStr_wordCh hword)
  · simp only [tokenize, List.mem_flatMap] at h
    obtain ⟨token, htoken, ht⟩ := h
    obtain ⟨-, hword⟩ := wordTokensGo_spec _ _ _ htoken
    split at ht
    · split at ht
      · rename_i hlen
        simp only [List.mem_singleton] at ht
        subst ht
        exact TermOK_mk (by omega) (lowerStr_idem token) (lowerStr_wordCh hword)
      · simp at ht
    · split at ht
      · obtain ⟨hlen, hidem, hchars⟩ := split_identifier_spec ht
        refine TermOK_mk hlen hidem ?_
        intro c hc
        obtain ⟨c0, hc0, hlc⟩ := hchars c hc
        subst hlc
        exact isWordCh_lowerCh (hword c0 hc0)
      · simp at ht

/-! ### Counter and stable-sort lemmas -/

theorem mem_counterAdd : ∀ {c : List (List Char × Nat)} {t : List Char}
    {e : List Char × Nat}, e ∈ counterAdd c t → e.1 = t ∨ e ∈ c := by
  intro c
  induction c with
  | nil =>
    intro t e h
    simp only [counterAdd, List.mem_singleton] at h
    subst h
    exact Or.inl rfl
  | cons hd rest ih =>
    intro t e h
    match hd with
    | (s, m) =>
      simp only [counterAdd] at h
      split at h
      · rcases List.mem_cons.mp h with h | h
        · subst h
          rename_i hs
          exact Or.inl hs
        · exact Or.inr (List.mem_cons_of_mem _ h)
      · rcases List.mem_cons.mp h with h | h
        · subst h
          exact Or.inr (List.mem_cons_self _ _)
        · rcases ih h with h | h
          · exact Or.inl h
          · exact Or.inr (List.mem_cons_of_mem _ h)

theorem counterUpdate_key_spec {Q : List Char → Prop} :
    ∀ (ts : List (List Char)) (c : List (List Char × Nat)),
    (∀ e ∈ c, Q e.1) → (∀ t ∈ ts, Q t) →
    ∀ e ∈ counterUpdate c ts, Q e.1 := by
  intro ts
  induction ts with
  | nil =>
    intro c hc _ e he
    exact hc e he
  | cons t rest ih =>
    intro c hc hts e he
    rw [counterUpdate, List.foldl_cons] at he
    refine ih (counterAdd c t) ?_ (fun u hu => hts u (List.mem_cons_of_mem _ hu)) e he
    intro e' he'
    rcases mem_counterAdd he' with h | h
    · rw [h]
      exact hts t (List.mem_cons_self _ _)
    · exact hc e' h

theorem scanState_key_spec {Q : List Char → Prop} (mode : String)
    (hQ : ∀ text t, t ∈ extract_terms mode text → Q t) :
    ∀ (entries : List FSEntry) (st : List (List Char × Nat) × Nat),
    (∀ e ∈ st.1, Q e.1) →
    ∀ e ∈ (entries.foldl (scanStep mode) st).1, Q e.1 := by
  intro entries
  induction entries with
  | nil =>
    intro st hst
    exact hst
  | cons f rest ih =>
    intro st hst
    rw [List.foldl_cons]
    refine ih _ ?_
    unfold scanStep
    split
    · exact hst
    · split
      · exact hst
      · by_cases hre : read_text f.bytes = []
        · simp only [hre, if_pos]
          exact hst
        · simp only [hre, if_neg, if_false]
          exact counterUpdate_key_spec _ _ hst (fun t ht => hQ _ t ht)

theorem insertDesc_perm (x : List Char × Nat) :
    ∀ (l : List (List Char × Nat)), List.Perm (insertDesc x l) (x :: l) := by
  intro l
  induction l with
  | nil => simp [insertDesc]
  | cons y ys ih =>
    rw [insertDesc]
    split
    · exact List.Perm.refl _
    · exact (ih.cons y).trans (List.Perm.swap x y ys)

theorem sortByCountDesc_perm : ∀ (l : List (List Char × Nat)),
    List.Perm (sortByCountDesc l) l := by
  intro l
  induction l with
  | nil => simp [sortByCountDesc]
  | cons x xs ih =>
    rw [sortByCountDesc]
    exact (insertDesc_perm x _).trans (ih.cons x)

theorem mem_most_common {c : List (List Char × Nat)} {n : Nat}
    {tc : List Char × Nat} (h : tc ∈ most_common c n) : tc ∈ c := by
  rw [most_common] at h
  exact (sortByCountDesc_perm c).mem_iff.mp (List.take_subset _ _ h)

theorem counterAdd_pos : ∀ {c : List (List Char × Nat)} {t : List Char},
    (∀ e ∈ c, 0 < e.2) → ∀ e ∈ counterAdd c t, 0 < e.2 := by
  intro c
  induction c with
  | nil =>
    intro t _ e he
    simp only [counterAdd, List.mem_singleton] at he
    subst he
    simp
  | cons hd rest ih =>
    intro t hc e he
    match hd with
    | (s, m) =>
      simp only [counterAdd] at he
      split at he
      · rcases List.mem_cons.mp he with he | he
        · subst he
          simp
        · exact hc e (List.mem_cons_of_mem _ he)
      · rcases List.mem_cons.mp he with he | he
        · subst he
          exact hc _ (List.mem_cons_self _ _)
        · exact ih (fun u hu => hc u (List.mem_cons_of_mem _ hu)) e he

theorem counterUpdate_pos : ∀ (ts : List (List Char)) (c : List (List Char × Nat)),
    (∀ e ∈ c, 0 < e.2) → ∀ e ∈ counterUpdate c ts, 0 < e.2 := by
  intro ts
  induction ts with
  | nil =>
    intro c hc
    exact hc
  | cons t rest ih =>
    intro c hc
    rw [counterUpdate, List.foldl_cons]
    exact ih _ (counterAdd_pos hc)

theorem scanState_pos (mode : String) : ∀ (entries : List FSEntry)
    (st : List (List Char × Nat) × Nat),
    (∀ e ∈ st.1, 0 < e.2) →
    ∀ e ∈ (entries.foldl (scanStep mode) st).1, 0 < e.2 := by
  intro entries
  induction entries with
  | nil =>
    intro st hst
    exact hst
  | cons f rest ih =>
    intro st hst
    rw [List.foldl_cons]
    refine ih _ ?_
    unfold scanStep
    split
    · exact hst
    · split
      · exact hst
      · by_cases hre : read_text f.bytes = []
        · simp only [hre, if_pos]
          exact hst
        · simp only [hre, if_neg, if_false]
          exact counterUpdate_pos _ _ hst

theorem insertDesc_pairwise {x : List Char × Nat} {xs : List (List Char × Nat)} :
    ∀ (S : List (List Char × Nat)),
    S.Pairwise (fun a b => b.2 ≤ a.2 ∧ (a.2 = b.2 → List.Sublist [a, b] xs)) →
    (∀ z ∈ S, z ∈ xs) →
    (insertDesc x S).Pairwise
      (fun a b => b.2 ≤ a.2 ∧ (a.2 = b.2 → List.Sublist [a, b] (x :: xs))) := by
  intro S
  induction S with
  | nil =>
    intro _ _
    simp [insertDesc]
  | cons y S2 ih =>
    intro hS hmem
    rw [insertDesc]
    split
    · rename_i hc
      refine List.Pairwise.cons ?_ ?_
      · intro z hz
        have hz2 : z.2 ≤ x.2 := by
          rcases List.mem_cons.mp hz with hz | hz
          · subst hz; exact hc
          · exact le_trans (List.rel_of_pairwise_cons hS hz).1 hc
        refine ⟨hz2, ?_⟩
        intro _
        exact (List.singleton_sublist.mpr (hmem z hz)).cons₂ x
      · refine hS.imp ?_
        intro a b hab
        exact ⟨hab.1, fun htie => (hab.2 htie).cons x⟩
    · rename_i hc
      push_neg at hc
      refine List.Pairwise.cons ?_
        (ih hS.tail (fun z hz => hmem z (List.mem_cons_of_mem _ hz)))
      intro z hz
      have hz2 : z ∈ x :: S2 := (insertDesc_perm x S2).mem_iff.mp hz
      rcases List.mem_cons.mp hz2 with hz3 | hz3
      · subst hz3
        refine ⟨le_of_lt hc, ?_⟩
        intro htie
        omega
      · have hr := List.rel_of_pairwise_cons hS hz3
        exact ⟨hr.1, fun htie => (hr.2 htie).cons x⟩

/-- The stable sort is simultaneously sorted by count descending and stable:
whenever a pair appears in order in the output with equal counts, that pair
is a sublist of (i.e. appears in the same order in) the input. -/
theorem sortByCountDesc_pairwise : ∀ (l : List (List Char × Nat)),
    (sortByCountDesc l).Pairwise
      (fun a b => b.2 ≤ a.2 ∧ (a.2 = b.2 → List.Sublist [a, b] l)) := by
  intro l
  induction l with
  | nil => simp [sortByCountDesc]
  | cons x xs ih =>
    rw [sortByCountDesc]
    exact insertDesc_pairwise _ ih
      (fun z hz => (sortByCountDesc_perm xs).mem_iff.mp hz)

/-- When `utf8Step` rejects the head of the byte list, every byte of the
skipped maximal subpart is ≥ 128 (ASCII bytes are never swallowed by an
invalid sequence). -/
theorem utf8Step_none_spec {b : Nat} {rest : List Nat} {k : Nat}
    (h : utf8Step (b :: rest) = (none, k)) :
    ∃ pre suf, b :: rest = pre ++ suf ∧ (b :: rest).drop (max k 1) = suf ∧
      ∀ x ∈ pre, 128 ≤ x := by
  simp only [utf8Step] at h
  repeat' split at h
  all_goals try (simp at h; done)
  all_goals (rw [Prod.mk.injEq] at h; obtain ⟨-, hk⟩ := h; subst hk)
  all_goals refine ⟨_, _, (List.take_append_drop (max _ 1) _).symm, rfl, ?_⟩
  all_goals intro x hx
  all_goals simp at hx
  all_goals omega

/-- The decoder never returns an empty string when some byte is ASCII
(< 128): such a byte always survives as a decoded character. -/
theorem utf8Go_ne_nil : ∀ (fuel : Nat) (bs : List Nat), bs.length ≤ fuel →
    (∃ x ∈ bs, x < 128) → utf8Go fuel bs ≠ [] := by
  intro fuel
  induction fuel with
  | zero =>
    intro bs hlen hex
    interval_cases hb : bs.length
    · rw [List.length_eq_zero] at hb
      subst hb
      simp at hex
  | succ fuel ih =>
    intro bs hlen hex
    match bs with
    | [] => simp at hex
    | b :: rest =>
      rw [utf8Go]
      rcases hstep : (utf8Step (b :: rest)).1 with _ | cp
      · rcases hstep2 : utf8Step (b :: rest) with ⟨cp?, k⟩
        rw [hstep2] at hstep
        simp only at hstep
        subst hstep
        simp only [hstep2]
        obtain ⟨pre, suf, happ, hdrop, hpre⟩ := utf8Step_none_spec hstep2
        rw [hdrop]
        apply ih
        · have h1 : (b :: rest).length = rest.length + 1 := rfl
          have h2 : ((b :: rest).drop (max k 1)).length =
              (b :: rest).length - max k 1 := List.length_drop _ _
          rw [hdrop] at h2
          simp only [List.length_cons] at hlen h2 ⊢
          omega
        · obtain ⟨x, hx, hxlt⟩ := hex
          rw [happ] at hx
          rcases List.mem_append.mp hx with hx | hx
          · exact absurd (hpre x hx) (by omega)
          · exact ⟨x, hx, hxlt⟩
      · simp only [hstep]
        intro hcontra
        exact List.cons_ne_nil _ _ hcontra

/-- Claim **C4.** `b'\x00abc'` is classified binary and the loader yields the
empty string; in general the loader returns the empty string exactly when
the bytes are empty, contain a null byte, or have a printable-ASCII
fraction not exceeding 0.8 — and otherwise decodes the bytes as UTF-8,
dropping undecodable sequences. -/
theorem C4_binary_detection :
    decode_content [0, 97, 98, 99] = [] ∧
    ∀ b : List Nat,
      (is_probably_text b = false ↔
        (b = [] ∨ 0 ∈ b ∨ 5 * b.countP isPrintableByte ≤ 4 * b.length)) ∧
      (decode_content b = [] ↔
        (b = [] ∨ 0 ∈ b ∨ 5 * b.countP isPrintableByte ≤ 4 * b.length)) ∧
      (is_probably_text b = true → decode_content b = utf8DecodeIgnore b) := by
  refine ⟨by decide, ?_⟩
  intro b
  have hclass : is_probably_text b = false ↔
      (b = [] ∨ 0 ∈ b ∨ 5 * b.countP isPrintableByte ≤ 4 * b.length) := by
    by_cases h1 : b = []
    · simp [is_probably_text, h1]
    · by_cases h2 : (0 : Nat) ∈ b
      · simp [is_probably_text, h1, h2]
      · rw [is_probably_text, if_neg h1, if_neg h2]
        simp only [decide_eq_false_iff_not, not_lt]
        constructor
        · intro hle
          exact Or.inr (Or.inr hle)
        · rintro (hc | hc | hc)
          · exact absurd hc h1
          · exact absurd hc h2
          · exact hc
  refine ⟨hclass, ?_, ?_⟩
  · constructor
    · intro hdec
      by_contra hcond
      have htext : is_probably_text b = true := by
        cases hb : is_probably_text b
        · exact absurd (hclass.mp hb) hcond
        · rfl
      rw [decode_content, htext] at hdec
      simp only [Bool.not_true, Bool.false_eq_true, if_false] at hdec
      push_neg at hcond
      obtain ⟨hne, hnull, hfrac⟩ := hcond
      have hcount : 0 < b.countP isPrintableByte := by
        by_contra hc
        push_neg at hc
        interval_cases hcp : b.countP isPrintableByte
        · omega
      obtain ⟨x, hx, hpx⟩ := List.countP_pos_iff.mp hcount
      have hxlt : x < 128 := by
        simp only [isPrintableByte, Bool.or_eq_true, Bool.and_eq_true,
          decide_eq_true_eq] at hpx
        omega
      exact utf8Go_ne_nil b.length b le_rfl ⟨x, hx, hxlt⟩ hdec
    · intro hcond
      rw [decode_content, hclass.mpr hcond]
      rfl
  · intro htext
    rw [decode_content, htext]
    rfl

/-- Claim **C4, witness** for the decoding conjunct: nonempty printable ASCII
bytes are classified text and decoded. -/
theorem C4_binary_detection_witness :
    is_probably_text [104, 105] = true ∧
    decode_content [104, 105] = utf8DecodeIgnore [104, 105] ∧
    decode_content [104, 105] = ['h', 'i'] := by
  refine ⟨by decide, ((C4_binary_detection.2 [104, 105]).2.2 (by decide)), by decide⟩

/-- Claim **C5.** Symbol extraction on the four-line example yields exactly
`["widget", "build_widget", "const_value"]` (the indented `nested_var` is
excluded), and per line the rules are tried in the order type, function,
variable — the variable rule only at zero indentation — stopping at the
first match. -/
theorem C5_symbol_extractor :
    symbol_tokens c5Text.toList =
      ["widget".toList, "build_widget".toList, "const_value".toList] ∧
    (∀ (line n : List Char),
      stripChars line ≠ [] →
      commentMarkers.any (fun m => m.isPrefixOf (stripChars line)) = false →
      (matchTypeDef (stripChars line) = some n → lineDefs line = [n]) ∧
      (matchTypeDef (stripChars line) = none →
        matchFuncDef (stripChars line) = some n → lineDefs line = [n]) ∧
      (matchTypeDef (stripChars line) = none →
        matchFuncDef (stripChars line) = none → startsSpaceTab line = false →
        lineDefs line = (matchVarDef (stripChars line)).toList) ∧
      (matchTypeDef (stripChars line) = none →
        matchFuncDef (stripChars line) = none → startsSpaceTab line = true →
        lineDefs line = [])) := by
  constructor
  · decide
  · intro line n hne hnc
    refine ⟨?_, ?_, ?_, ?_⟩
    · intro ht
      simp only [lineDefs, if_neg hne, hnc, Bool.false_eq_true, if_neg, ht]
      simp
    · intro ht hf
      simp only [lineDefs, if_neg hne, hnc, Bool.false_eq_true, if_neg, ht, hf]
      simp
    · intro ht hf hz
      simp only [lineDefs, if_neg hne, hnc, Bool.false_eq_true, if_neg, ht, hf, hz]
      simp only [if_false]
      cases matchVarDef (stripChars line) <;> simp
    · intro ht hf hz
      simp only [lineDefs, if_neg hne, hnc, Bool.false_eq_true, if_neg, ht, hf, hz]
      simp

/-- Claim **C5, witness** for the precedence part: on `class Widget:` the type
rule fires; on `CONST_VALUE = 1` (zero indentation, no type/function match)
the variable rule decides; on the indented `  nested_var = 2` nothing is
recorded. -/
theorem C5_symbol_extractor_witness :
    lineDefs "class Widget:".toList = ["Widget".toList] ∧
    lineDefs "CONST_VALUE = 1".toList = ["CONST_VALUE".toList] ∧
    lineDefs "  nested_var = 2".toList = [] := by
  refine ⟨?_, ?_, ?_⟩
  · exact (C5_symbol_extractor.2 "class Widget:".toList "Widget".toList
      (by decide) (by decide)).1 (by decide)
  · have h := (C5_symbol_extractor.2 "CONST_VALUE = 1".toList "CONST_VALUE".toList
      (by decide) (by decide)).2.2.1 (by decide) (by decide) (by decide)
    rw [h]
    decide
  · exact (C5_symbol_extractor.2 "  nested_var = 2".toList "x".toList
      (by decide) (by decide)).2.2.2 (by decide) (by decide) (by decide)

/-- The `scanned_files` component of the walk-loop state counts exactly the
non-directory, non-skipped entries with non-empty loaded text. -/
theorem scanState_snd (mode : String) : ∀ (entries : List FSEntry)
    (st : List (List Char × Nat) × Nat),
    (entries.foldl (scanStep mode) st).2 = st.2 + nonEmptyTextFileCount mode entries := by
  intro entries
  induction entries with
  | nil => intro st; simp [nonEmptyTextFileCount]
  | cons e rest ih =>
    intro st
    rw [List.foldl_cons, ih]
    have hfil : nonEmptyTextFileCount mode (e :: rest) =
        (if (!e.isDir && !should_skip_file e mode &&
          !decide (read_text e.bytes = [])) = true then 1 else 0) +
          nonEmptyTextFileCount mode rest := by
      unfold nonEmptyTextFileCount
      rw [List.filter_cons]
      split
      · rename_i hc
        simp [hc]
        omega
      · rename_i hc
        simp [hc]
    rw [hfil]
    unfold scanStep
    split
    · rename_i hdir
      simp [hdir]
    · rename_i hdir
      simp only [Bool.not_eq_true] at hdir
      split
      · rename_i hskip
        simp [hdir, hskip]
      · rename_i hskip
        simp only [Bool.not_eq_true] at hskip
        by_cases hre : read_text e.bytes = []
        · simp [hdir, hskip, hre]
        · simp [hdir, hskip, hre]
          omega

/-- Claim **C9.** The `files` field of every returned item is the same global
statistic: the number of files whose loaded text was non-empty (skipped,
unreadable, binary and empty files contribute nothing); it is not a
per-term count. -/
theorem C9_files_field : ∀ (mode : String) (entries : List FSEntry)
    (item : Item), item ∈ collect_frequencies mode entries →
    item.files = nonEmptyTextFileCount mode entries := by
  intro mode entries item hmem
  unfold collect_frequencies at hmem
  obtain ⟨tc, -, hitem⟩ := List.mem_map.mp hmem
  have : item.files = (scanState mode entries).2 := by
    rw [← hitem]
  rw [this]
  unfold scanState
  rw [scanState_snd]
  simp

/-- Claim **C9, witness**: on a one-file tree the single scanned file gives
`files = 1` for the produced items. -/
theorem C9_files_field_witness :
    ({ term := "hello".toList, count := 1, mode := "words", files := 1 } : Item) ∈
      collect_frequencies "words" [plainEntry] ∧
    ({ term := "hello".toList, count := 1, mode := "words", files := 1 } : Item).files =
      nonEmptyTextFileCount "words" [plainEntry] := by
  refine ⟨by decide, ?_⟩
  exact C9_files_field "words" [plainEntry] _ (by decide)

/-- Claim **C7.** Every term produced by any of the tokenizers — and hence every
term appearing in the result's items — has length > 1, equals its own
lowercasing, and is neither empty nor whitespace. -/
theorem C7_term_invariants :
    (∀ (mode : String) (text : List Char) (t : List Char),
      t ∈ extract_terms mode text → TermOK t) ∧
    (∀ (mode : String) (entries : List FSEntry) (item : Item),
      item ∈ collect_frequencies mode entries → TermOK item.term) := by
  refine ⟨extract_terms_spec, ?_⟩
  intro mode entries item hmem
  unfold collect_frequencies at hmem
  obtain ⟨tc, htc, hitem⟩ := List.mem_map.mp hmem
  have hkey : TermOK tc.1 := by
    refine scanState_key_spec mode (fun text t ht => extract_terms_spec mode text t ht)
      entries ([], 0) (by simp) tc (mem_most_common htc)
  rw [← hitem]
  exact hkey

/-- Claim **C7, witness**: the term `hello` produced on the Words-mode scan of a
one-file tree is well-formed. -/
theorem C7_term_invariants_witness :
    "hello".toList ∈ extract_terms "words" "hello world".toList ∧
    TermOK "hello".toList := by
  refine ⟨by decide, ?_⟩
  exact C7_term_invariants.1 "words" "hello world".toList "hello".toList (by decide)

/-- Claim **C3.** For every mode and tree state the items list has at most 120
entries, its counts are non-increasing, and equal-count items appear in the
order in which their terms were first inserted into the accumulator (the
pair of counter entries is a sublist of the accumulator, which is kept in
first-insertion order). -/
theorem C3_ranking_invariants : ∀ (mode : String) (entries : List FSEntry),
    (collect_frequencies mode entries).length ≤ 120 ∧
    (collect_frequencies mode entries).Pairwise
      (fun a b => b.count ≤ a.count) ∧
    (collect_frequencies mode entries).Pairwise
      (fun a b => a.count = b.count →
        List.Sublist [(a.term, a.count), (b.term, b.count)]
          (scanState mode entries).1) := by
  intro mode entries
  have hrw : collect_frequencies mode entries =
      (most_common (scanState mode entries).1 120).map fun tc =>
        { term := tc.1, count := tc.2, mode := mode,
          files := (scanState mode entries).2 } := rfl
  rw [hrw]
  have hp := List.Pairwise.sublist (List.take_sublist 120 _)
    (sortByCountDesc_pairwise (scanState mode entries).1)
  refine ⟨?_, ?_, ?_⟩
  · rw [List.length_map, most_common]
    exact List.length_take_le _ _
  · exact List.Pairwise.map _ (fun a b hab => hab.1) hp
  · exact List.Pairwise.map _ (fun a b hab htie => hab.2 htie) hp

/-- Claim **C8.** `total_terms` sums the counts of the returned (top-120) items
only; when the accumulator holds more than 120 distinct terms it
under-counts the corpus total. -/
theorem C8_total_terms : ∀ (mode : String) (entries : List FSEntry),
    (build_response mode entries).2.2 =
      ((collect_frequencies mode entries).map Item.count).sum ∧
    (120 < (scanState mode entries).1.length →
      (build_response mode entries).2.2 <
        ((scanState mode entries).1.map Prod.snd).sum) := by
  intro mode entries
  refine ⟨rfl, ?_⟩
  intro hlen
  set c := (scanState mode entries).1 with hc
  set s := sortByCountDesc c with hs
  have htotal : (build_response mode entries).2.2 = ((s.take 120).map Prod.snd).sum := by
    show ((collect_frequencies mode entries).map Item.count).sum = _
    have : collect_frequencies mode entries =
        (most_common c 120).map fun tc =>
          { term := tc.1, count := tc.2, mode := mode,
            files := (scanState mode entries).2 } := rfl
    rw [this, List.map_map, most_common]
    rfl
  have hsum : (c.map Prod.snd).sum = ((s.take 120).map Prod.snd).sum +
      ((s.drop 120).map Prod.snd).sum := by
    have hperm : (s.map Prod.snd).sum = (c.map Prod.snd).sum :=
      ((sortByCountDesc_perm c).map Prod.snd).sum_eq
    rw [← hperm]
    rw [← List.sum_append, ← List.map_append, List.take_append_drop]
  have hpos : 0 < ((s.drop 120).map Prod.snd).sum := by
    have hlens : s.length = c.length := (sortByCountDesc_perm c).length_eq
    have hne : (s.drop 120).map Prod.snd ≠ [] := by
      intro hcontra
      have := congrArg List.length hcontra
      simp only [List.length_map, List.length_drop, List.length_nil] at this
      omega
    refine List.sum_pos _ ?_ hne
    intro x hx
    simp only [List.mem_map] at hx
    obtain ⟨e, he, hex⟩ := hx
    subst hex
    have hec : e ∈ c := (sortByCountDesc_perm c).mem_iff.mp (List.drop_subset _ _ he)
    exact scanState_pos mode entries ([], 0) (by simp) e hec
  rw [htotal]
  omega

set_option maxRecDepth 100000 in
/-- Claim **C8, witness**: a file with 121 distinct words makes the accumulator
exceed 120 entries, and `total_terms` is then strictly below the corpus
total. -/
theorem C8_total_terms_witness :
    120 < (scanState "words" [manyWordsEntry]).1.length ∧
    (build_response "words" [manyWordsEntry]).2.2 <
      ((scanState "words" [manyWordsEntry]).1.map Prod.snd).sum := by
  refine ⟨by decide, ?_⟩
  exact (C8_total_terms "words" [manyWordsEntry]).2 (by decide)

/-- Claim **C10.** On the zero-indentation line `foo == bar` the top-level
variable rule fires even though the line is a comparison, because the
pattern `^([A-Za-z_][\w]*)\s*=` does not exclude `==`; the extractor yields
`foo`. -/
theorem C10_var_rule_on_comparison :
    symbol_tokens "foo == bar".toList = ["foo".toList] ∧
    matchVarDef (stripChars "foo == bar".toList) = some "foo".toList := by
  refine ⟨by decide, by decide⟩

end CodeCloud
